import Mathlib

set_option maxRecDepth 20000

namespace Dokuwiki

/- Shallow embedding of the dokuwiki parser (parser.go, contexts.go).
   Byte slices are modelled as List Char (all inputs of interest are ASCII,
   where Go's byte-level processing and char-level processing coincide);
   Go slices have value semantics here. -/

-- Sentinel markers (parser.go lines 15-26).
def startOfCodeTag : List Char := [Char.ofNat 0, Char.ofNat 1]
def endOfCodeTag : List Char := [Char.ofNat 0, Char.ofNat 2]
def startOfFileTag : List Char := [Char.ofNat 0, Char.ofNat 3]
def endOfFileTag : List Char := [Char.ofNat 0, Char.ofNat 4]
def startOfHTMLTag : List Char := [Char.ofNat 0, Char.ofNat 5]
def endOfHTMLTag : List Char := [Char.ofNat 0, Char.ofNat 6]
def startOfhtmlTag : List Char := [Char.ofNat 0, Char.ofNat 7]
def endOfhtmlTag : List Char := [Char.ofNat 0, Char.ofNat 8]
def startOfNoWikiTag : List Char := [Char.ofNat 0, Char.ofNat 9]
def endOfNoWikiTag : List Char := [Char.ofNat 0, Char.ofNat 10]

-- Block type constants (parser.go lines 28-34).
def noneType : Nat := 0
def sectionHeaderType : Nat := 1
def unOrderedListType : Nat := 2
def orderedListType : Nat := 3
def paraType : Nat := 4

-- Alignment constants (contexts.go lines 10-14).
def AlignLeft : Nat := 0
def AlignCenter : Nat := 1
def AlignRight : Nat := 2

-- Text effect bits (contexts.go lines 16-24).
def TextEffectBold : Nat := 1
def TextEffectItalic : Nat := 2
def TextEffectUnderline : Nat := 4
def TextEffectMonoSpace : Nat := 8

def isAsciiLetter (c : Char) : Bool :=
  ('a' ≤ c && c ≤ 'z') || ('A' ≤ c && c ≤ 'Z')

def isDigitCh (c : Char) : Bool := '0' ≤ c && c ≤ '9'

-- Go's unicode.IsSpace restricted to ASCII (all inputs considered are ASCII).
def isGoSpace (c : Char) : Bool :=
  c == ' ' || c == '\t' || c == '\n' || c == '\r' || c == Char.ofNat 11 || c == Char.ofNat 12

-- strings.TrimSpace / bytes.TrimSpace.
def trimSpace (l : List Char) : List Char :=
  ((l.dropWhile isGoSpace).reverse.dropWhile isGoSpace).reverse

-- strings.TrimRight(s, "\t ").
def trimRightTabSpace (l : List Char) : List Char :=
  (l.reverse.dropWhile (fun c => c == ' ' || c == '\t')).reverse

-- startsL pat l: l starts with pat (element-wise).
def startsL : List Char → List Char → Bool
  | [], _ => true
  | _ :: _, [] => false
  | p :: ps, b :: bs => p == b && startsL ps bs

-- bytes.HasSuffix(buf, pat).
def endsL (buf pat : List Char) : Bool := startsL pat.reverse buf.reverse

-- End/start tag literals checked with bytes.HasSuffix in generateLines.
def endCodeLit : List Char := ['<', '/', 'c', 'o', 'd', 'e', '>']
def endFileLit : List Char := ['<', '/', 'f', 'i', 'l', 'e', '>']
def startHtmlLit : List Char := ['<', 'h', 't', 'm', 'l', '>']
def endHtmlLit : List Char := ['<', '/', 'h', 't', 'm', 'l', '>']
def startHTMLLit : List Char := ['<', 'H', 'T', 'M', 'L', '>']
def endHTMLLit : List Char := ['<', '/', 'H', 'T', 'M', 'L', '>']
def startNoWikiLit : List Char := ['<', 'n', 'o', 'w', 'i', 'k', 'i', '>']
def endNoWikiLit : List Char := ['<', '/', 'n', 'o', 'w', 'i', 'k', 'i', '>']

def revCodePre : List Char := [' ', 'e', 'd', 'o', 'c', '<']

/- bytesEndsWithRegexp(buf, validCodeStartTag) where
   validCodeStartTag = regexp `<code [a-zA-Z]+>$` (parser.go line 39):
   the buffer matches iff it ends with "<code " ++ letters ++ ">" with a
   nonempty letter run; the returned length is the length of that match. -/
def codeStartMatchLen (buf : List Char) : Nat :=
  match buf.reverse with
  | b :: rest =>
    if b = '>' then
      let w := rest.takeWhile isAsciiLetter
      if w ≠ [] ∧ (rest.drop w.length).take 6 = revCodePre then w.length + 7 else 0
    else 0
  | [] => 0

def fileStartPre : List Char := ['<', 'f', 'i', 'l', 'e', ' ']

/- One candidate position of validFileStartTag = regexp `<file [a-zA-Z]+ .+>$`
   (parser.go line 40): the suffix l (ending at the end of the buffer) matches
   the whole pattern iff it is "<file " ++ letters+ ++ " " ++ chars+ ++ ">",
   where the chars+ part contains no newline (regexp `.` excludes newline). -/
def fileMatchAt (l : List Char) : Bool :=
  startsL fileStartPre l &&
  (let t := l.drop 6
   let w := t.takeWhile isAsciiLetter
   !w.isEmpty &&
   (match t.drop w.length with
    | ' ' :: r =>
      (r.getLast? == some '>') && !r.dropLast.isEmpty &&
        r.dropLast.all (fun c => c != '\n')
    | _ => false))

-- Leftmost-first match length of validFileStartTag against a suffix of buf.
def fileStartFrom : List Char → Nat
  | [] => 0
  | c :: rest => if fileMatchAt (c :: rest) then rest.length + 1 else fileStartFrom rest

def fileStartMatchLen (buf : List Char) : Nat := fileStartFrom buf

-- replaceBytesWithMarker (parser.go lines 226-228).
def replaceBytesWithMarker (lineBytes : List Char) (length : Nat) (marker : List Char) : List Char :=
  lineBytes.take (lineBytes.length - length) ++ marker

-- The literal-region scanner state: the five mode flags of generateLines
-- (parser.go lines 89-93) plus the accumulation buffer blockBytes.
structure ScanState where
  isInCodeTag : Bool
  isInFileTag : Bool
  isInHTMLTag : Bool
  isInhtmlTag : Bool
  isInNoWikiTag : Bool
  buf : List Char
deriving DecidableEq

def anyTag (s : ScanState) : Bool :=
  s.isInCodeTag || s.isInFileTag || s.isInHTMLTag || s.isInhtmlTag || s.isInNoWikiTag

def initScan : ScanState := ⟨false, false, false, false, false, []⟩

-- The per-character body of the inner loop of generateLines
-- (parser.go lines 104-149), including the else-if priority chain at '>'.
def scanChar (s : ScanState) (b : Char) : ScanState :=
  let buf := s.buf ++ [b]
  if b = '>' then
    if 0 < codeStartMatchLen buf then
      if anyTag s then { s with buf := buf }
      else { s with isInCodeTag := true,
                    buf := replaceBytesWithMarker buf (codeStartMatchLen buf) startOfCodeTag }
    else if endsL buf endCodeLit then
      { s with isInCodeTag := false, buf := replaceBytesWithMarker buf 7 endOfCodeTag }
    else if 0 < fileStartMatchLen buf then
      if anyTag s then { s with buf := buf }
      else { s with isInFileTag := true,
                    buf := replaceBytesWithMarker buf (fileStartMatchLen buf) startOfFileTag }
    else if endsL buf endFileLit then
      { s with isInFileTag := false, buf := replaceBytesWithMarker buf 7 endOfFileTag }
    else if endsL buf startHtmlLit then
      if anyTag s then { s with buf := buf }
      else { s with isInhtmlTag := true, buf := replaceBytesWithMarker buf 6 startOfhtmlTag }
    else if endsL buf endHtmlLit then
      { s with isInhtmlTag := false, buf := replaceBytesWithMarker buf 7 endOfhtmlTag }
    else if endsL buf startHTMLLit then
      if anyTag s then { s with buf := buf }
      else { s with isInHTMLTag := true, buf := replaceBytesWithMarker buf 6 startOfHTMLTag }
    else if endsL buf endHTMLLit then
      { s with isInHTMLTag := false, buf := replaceBytesWithMarker buf 7 endOfHTMLTag }
    else if endsL buf startNoWikiLit then
      if anyTag s then { s with buf := buf }
      else { s with isInNoWikiTag := true, buf := replaceBytesWithMarker buf 8 startOfNoWikiTag }
    else if endsL buf endNoWikiLit then
      { s with isInNoWikiTag := false, buf := replaceBytesWithMarker buf 9 endOfNoWikiTag }
    else { s with buf := buf }
  else { s with buf := buf }

def scanLine (s : ScanState) (line : List Char) : ScanState := line.foldl scanChar s

/- parseSectionHeader (parser.go lines 536-543).
   validSectionHeader = `^(=+)([^=]+)(=+)$`: after trimming trailing tabs and
   spaces the line must be a maximal leading run of a copies of '=', a
   nonempty middle containing no '=', and a maximal trailing run of b copies
   of '='; accepted iff a = b, returning (a, trimSpace middle). -/
def parseSectionHeader (line : List Char) : Nat × List Char :=
  let l := trimRightTabSpace line
  let a := (l.takeWhile (fun c => c == '=')).length
  let b := (l.reverse.takeWhile (fun c => c == '=')).length
  let mid := (l.drop a).take (l.length - a - b)
  if 1 ≤ a ∧ a = b ∧ mid ≠ [] ∧ mid.all (fun c => c != '=') = true then
    (a, trimSpace mid)
  else (0, [])

/- parseListItem (parser.go lines 594-602).
   validListItem = `^((  )+)([*-]) ((?s).*)$`: a nonempty even run of leading
   spaces, then '*' or '-', then one space, then the rest. The Go code
   returns len(groups[1]) — the number of indent CHARACTERS — as the level
   (its own test expects level 2 for a single 2-space group). -/
def parseListItem (line : List Char) : Nat × Bool × List Char :=
  let indent := line.takeWhile (fun c => c == ' ')
  match line.drop indent.length with
  | m :: c :: rest =>
    if (m == '*' || m == '-') && (c == ' ') &&
        decide (2 ≤ indent.length) && decide (indent.length % 2 = 0) then
      (indent.length, m == '-', trimSpace rest)
    else (0, false, [])
  | _ => (0, false, [])

-- wholeBlock (parser.go lines 45-60).
structure wholeBlock where
  blockType : Nat
  headerLevel : Nat
  listLevel : Nat
  forceNewList : Bool
  rawText : List Char
deriving DecidableEq, Repr

structure GenState where
  scan : ScanState
  lastBlockBytes : List Char
  blocks : List wholeBlock

-- bytes.Split(content, "\n").
def splitLines : List Char → List (List Char)
  | [] => [[]]
  | '\n' :: rest => [] :: splitLines rest
  | c :: rest =>
    match splitLines rest with
    | [] => [[c]]
    | l :: ls => (c :: l) :: ls

-- The currentBlockStopsHere decision of generateLines (lines 186-196).
def lineStops (next : List Char) : Bool :=
  trimSpace next == [] || decide (0 < (parseListItem next).1) ||
    decide (0 < (parseSectionHeader next).1)

-- End-of-physical-line processing of generateLines (lines 151-211).
def endOfLine (st : GenState) (next : List Char) : GenState :=
  let s := st.scan
  if anyTag s then
    { st with scan := { s with buf := s.buf ++ ['\n'] } }
  else if trimSpace s.buf ≠ [] then
    let hdr := parseSectionHeader s.buf
    if 0 < hdr.1 then
      { scan := { s with buf := [] }, lastBlockBytes := s.buf,
        blocks := st.blocks ++ [⟨sectionHeaderType, hdr.1, 0, false, hdr.2⟩] }
    else
      let li := parseListItem s.buf
      if 0 < li.1 then
        { scan := { s with buf := [] }, lastBlockBytes := s.buf,
          blocks := st.blocks ++
            [⟨if li.2.1 then orderedListType else unOrderedListType, 0, li.1,
              trimSpace st.lastBlockBytes == [], li.2.2⟩] }
      else
        if lineStops next then
          { scan := { s with buf := [] }, lastBlockBytes := s.buf,
            blocks := st.blocks ++ [⟨paraType, 0, 0, false, s.buf⟩] }
        else
          { st with scan := { s with buf := s.buf ++ [' '] } }
  else
    { st with scan := { s with buf := [] }, lastBlockBytes := s.buf }

def genLoop : GenState → List (List Char) → GenState
  | st, [] => st
  | st, line :: rest =>
    let st2 : GenState := { st with scan := scanLine st.scan line }
    let next := match rest with
      | [] => ([] : List Char)
      | n :: _ => n
    genLoop (endOfLine st2 next) rest

-- generateLines (parser.go lines 88-215).
def generateLines (origContent : List Char) : List wholeBlock :=
  (genLoop ⟨initScan, [], []⟩ (splitLines (origContent ++ ['\n']))).blocks

-- Inline node variants (contexts.go lines 94-136).
inductive InlineContext where
  | textEffect (effectType : Nat) (text : List Char)
  | hyperLink (hyperLink : List Char) (text : List Char) (isInternal : Bool)
  | mediaCtx (mediaType : Nat) (width : Int) (height : Int) (align : Nat)
      (title : List Char) (resource : List Char)
  | codeFile (text : List Char)
  | htmlCtx (text : List Char)
  | noWiki (text : List Char)
deriving DecidableEq

-- Block node variants (contexts.go lines 62-80).  Parent back-references are
-- value copies in the Go source and carry no observable information; they are
-- omitted here.  The child list of a List node is a mutually defined list
-- type so all recursions over the tree are structural.
mutual

inductive BlockContext where
  | sectionHeader (headerLevel : Nat) (headerText : List Char)
  | list (level : Nat) (ordered : Bool) (innerContexts : BlockList)
  | para (rawText : List Char) (innerContexts : List InlineContext)

inductive BlockList where
  | nil
  | cons (head : BlockContext) (tail : BlockList)

end

structure ParseUnit where
  Title : String
  Sections : List BlockContext

/- The goDeeper loop of processLine (parser.go lines 262-303).  Because every
   mutation of listBlock.InnerContexts in the Go code is applied to a VALUE
   COPY obtained from a type assertion, the only observable outcomes of the
   loop are: panic (modelled as none), createTopLevelList = true
   (some true), or no state change at all (some false).  descendLast walks to
   the last child, mirroring listBlock.InnerContexts[len-1]. -/
mutual

def descendNode (lvl : Nat) (ord : Bool) : BlockContext → Option Bool
  | .list l o inner =>
    if l < lvl then descendLast lvl ord inner
    else if l = lvl then (if o == ord then some false else some true)
    else some true
  | _ => some true

def descendLast (lvl : Nat) (ord : Bool) : BlockList → Option Bool
  | .nil => none
  | .cons x .nil =>
    match x with
    | .list a b c => descendNode lvl ord (.list a b c)
    | _ => some false
  | .cons _ (.cons y t) => descendLast lvl ord (.cons y t)

end

-- processLine (parser.go lines 239-323); none models the Go panic.
def processLine (u : ParseUnit) (b : wholeBlock) : Option ParseUnit :=
  if b.blockType = sectionHeaderType then
    some ⟨u.Title, u.Sections ++ [.sectionHeader b.headerLevel b.rawText]⟩
  else if b.blockType = orderedListType ∨ b.blockType = unOrderedListType then
    match u.Sections.getLast? with
    | none => some ⟨u.Title, u.Sections ++ [.para b.rawText []]⟩
    | some cur =>
      let ord := b.blockType == orderedListType
      match (if b.forceNewList then some true else descendNode b.listLevel ord cur) with
      | none => none
      | some true =>
        -- the Paragraph child is appended to a value copy in the Go code and
        -- is lost, so the stored new top-level list has no children.
        some ⟨u.Title, u.Sections ++ [.list b.listLevel ord .nil]⟩
      | some false => some u
  else
    some ⟨u.Title, u.Sections ++ [.para b.rawText []]⟩

def processBlocks : ParseUnit → List wholeBlock → Option ParseUnit
  | u, [] => some u
  | u, b :: rest =>
    match processLine u b with
    | none => none
    | some u2 => processBlocks u2 rest

-- walkAST (parser.go lines 325-326): the body is empty.
def walkAST (u : ParseUnit) : ParseUnit := u

-- processContent (parser.go lines 230-237).
def processContent (u : ParseUnit) (blocks : List wholeBlock) : Option ParseUnit :=
  (processBlocks u blocks).map walkAST

-- Parse (parser.go lines 74-84); none models a Go panic escaping Parse.
def Parse (origContent : List Char) (title : String) : Option ParseUnit :=
  processContent ⟨title, []⟩ (generateLines origContent)

-- All inline nodes contained anywhere in a document tree.
mutual

def blockInlines : BlockContext → List InlineContext
  | .sectionHeader _ _ => []
  | .para _ inner => inner
  | .list _ _ inner => blockListInlines inner

def blockListInlines : BlockList → List InlineContext
  | .nil => []
  | .cons b rest => blockInlines b ++ blockListInlines rest

end

def sectionsInlines : List BlockContext → List InlineContext
  | [] => []
  | b :: rest => blockInlines b ++ sectionsInlines rest

def docInlines : Option ParseUnit → List InlineContext
  | none => []
  | some u => sectionsInlines u.Sections

-- The HyperLinkContext fields set by parseLink (contexts.go lines 116-120).
structure LinkNode where
  HyperLink : List Char
  Text : List Char
  IsInternal : Bool
deriving DecidableEq

/- parseLink (parser.go lines 469-484).  bytes.IndexByte finds the first '|';
   with a pipe the part before is HyperLink and the part after is Text
   (IsInternal keeps its false zero value); without a pipe Text is the whole
   content, IsInternal is true and HyperLink keeps its empty zero value. -/
def parseLink (linkBytes : List Char) : LinkNode :=
  let pre := linkBytes.takeWhile (fun c => c != '|')
  if pre.length = linkBytes.length then ⟨[], linkBytes, true⟩
  else ⟨pre, linkBytes.drop (pre.length + 1), false⟩

-- The MediaContext fields set by parseMedia (contexts.go lines 122-130).
structure MediaNode where
  MediaType : Nat
  Width : Int
  Height : Int
  Align : Nat
  Title : List Char
  MediaResouce : List Char
deriving DecidableEq

/- strconv.ParseInt(s, 10, 64) with the error discarded: parseMedia only
   feeds it digit strings (substrings of a \d+ match), for which ParseInt
   yields the value, clamped to MaxInt64 on range error; any other string
   (for example the empty string) yields 0. -/
def parseIntDec (s : List Char) : Int :=
  if s ≠ [] ∧ s.all isDigitCh = true then
    let v : Nat := s.foldl (fun a c => a * 10 + (c.toNat - 48)) 0
    if v ≤ 9223372036854775807 then (v : Int) else 9223372036854775807
  else 0

-- r matches regexp `\d+(x\d+)?` exactly (the part after '?' in validMedia).
def dimSuffixOk (r : List Char) : Bool :=
  let d := r.takeWhile isDigitCh
  !d.isEmpty &&
    (match r.drop d.length with
     | [] => true
     | 'x' :: rest => !rest.isEmpty && rest.all isDigitCh
     | _ => false)

/- The match of validMedia = `^(.*?)(\?\d+(x\d+)?)?$` (parser.go line 41):
   with the lazy first group, group 2 starts at the leftmost '?' whose suffix
   matches `\d+(x\d+)?` to the end; if there is none, group 2 is empty and
   group 1 is the whole string.  findDim returns the index of that '?'. -/
def findDim : List Char → Option Nat
  | [] => none
  | '?' :: rest =>
    if dimSuffixOk rest then some 0 else (findDim rest).map (· + 1)
  | _ :: rest => (findDim rest).map (· + 1)

/- parseMedia (parser.go lines 486-520); none models the Go panics: indexing
   bytesLeft[0] when bytesLeft is empty, and indexing groups[1] when
   validMedia fails to match (which happens exactly when the remaining text
   contains a newline, since `.` does not match newline). -/
def parseMedia (mediaBytes : List Char) : Option MediaNode :=
  let pre := mediaBytes.takeWhile (fun c => c != '|')
  let title := if pre.length = mediaBytes.length then [] else mediaBytes.drop (pre.length + 1)
  let bytesLeft := if pre.length = mediaBytes.length then mediaBytes else pre
  match bytesLeft with
  | [] => none
  | c0 :: restBL =>
    let align :=
      if c0 = ' ' then AlignLeft
      else if bytesLeft.getLast? = some ' ' then AlignRight
      else AlignCenter
    let bl :=
      if c0 = ' ' then restBL
      else if bytesLeft.getLast? = some ' ' then bytesLeft.dropLast
      else bytesLeft
    if bl.contains '\n' then none
    else
      match findDim bl with
      | none => some ⟨0, 0, 0, align, title, bl⟩
      | some i =>
        -- groups[2] = bl.drop i = "?...": the Go code slices off its first
        -- AND last character before splitting on 'x'.
        let dimentions := ((bl.drop i).drop 1).dropLast
        let wh :=
          if dimentions.contains 'x' then
            let wPart := dimentions.takeWhile (fun c => c != 'x')
            (parseIntDec wPart, parseIntDec (dimentions.drop (wPart.length + 1)))
          else (parseIntDec dimentions, 0)
        some ⟨0, wh.1, wh.2, align, title, bl.take i⟩

-- Character class \s of Go regexp: [\t\n\f\r ].
def isSpaceRE (c : Char) : Bool :=
  c == '\t' || c == '\n' || c == Char.ofNat 12 || c == '\r' || c == ' '

-- Character class [^\s/$.?#] of validURL.
def urlFirstOk (c : Char) : Bool :=
  !isSpaceRE c && !(c == '/' || c == '$' || c == '.' || c == '?' || c == '#')

def httpsScheme : List Char := ['h', 't', 't', 'p', 's', ':', '/', '/']
def httpScheme : List Char := ['h', 't', 't', 'p', ':', '/', '/']
def ftpScheme : List Char := ['f', 't', 'p', ':', '/', '/']

-- The `(https?|ftp)://` prefix of validURL (parser.go line 42).
def schemeLen (s : List Char) : Option Nat :=
  if startsL httpsScheme s then some 8
  else if startsL httpScheme s then some 7
  else if startsL ftpScheme s then some 6
  else none

/- Length of the match of validURL = `(https?|ftp)://[^\s/$.?#].[^\s]*`
   anchored at the front of s: scheme, one character from [^\s/$.?#], one
   arbitrary non-newline character (`.`), then a greedy run of non-space
   characters. -/
def matchURLAt (s : List Char) : Option Nat :=
  match schemeLen s with
  | none => none
  | some k =>
    match s.drop k with
    | c1 :: c2 :: rest2 =>
      if urlFirstOk c1 && (c2 != '\n') then
        some (k + 2 + (rest2.takeWhile (fun c => !isSpaceRE c)).length)
      else none
    | _ => none

def findURLFrom : Nat → List Char → Option (Nat × Nat)
  | _, [] => none
  | p, c :: rest =>
    match matchURLAt (c :: rest) with
    | some len => some (p, p + len)
    | none => findURLFrom (p + 1) rest

-- validURL.FindStringSubmatchIndex: leftmost match, (start, end) indices.
def findURL (s : List Char) : Option (Nat × Nat) := findURLFrom 0 s

/- The up-to-three replacement nodes built by scanParaOnce (parser.go lines
   559-580): text before the match (kept only when not whitespace-only, same
   effect mask), the HyperLinkContext for the URL, text after the match
   (kept only when not whitespace-only, same effect mask). -/
def spliceNode (eff : Nat) (t : List Char) (s e : Nat) : List InlineContext :=
  let before := t.take s
  let url := (t.drop s).take (e - s)
  let after := t.drop e
  (if trimSpace before ≠ [] then [InlineContext.textEffect eff before] else []) ++
    [InlineContext.hyperLink url url false] ++
    (if trimSpace after ≠ [] then [InlineContext.textEffect eff after] else [])

/- The splice of scanParaOnce at match index i (parser.go lines 581-585),
   with Go slice semantics.  The Go code rewrites the sequence S with
   append(append(S[:i], newContenxts...), S[i+1:]...), and S[:i] aliases S's
   backing array: whenever i + len(new) fits within cap(S), the inner append
   writes the replacement nodes IN PLACE, overwriting the tail elements
   S[i+1..i+len(new)-1] before the outer append copies the (already
   clobbered) tail slice S[i+1:]; only when the inner append must reallocate
   (i + len(new) > cap(S)) does the original tail survive, giving the clean
   splice.  When i is the last index the Go code appends no tail at all.
   The capacity of the sequence is therefore tracked explicitly.  The
   capacity produced by a reallocation is implementation-defined in Go (the
   language specification fixes only that it suffices), so it is supplied by
   a parameter g : required length → old capacity → new capacity, and the
   theorems below hold for every g and every starting capacity.  The
   function returns the new suffix of the sequence from position i on,
   paired with the new capacity. -/
def spliceGoList (cap i : Nat) (new tail : List InlineContext) : List InlineContext :=
  match tail with
  | [] => new
  | _ :: _ =>
    if i + new.length ≤ cap then
      new ++ ((new.drop 1) ++ tail.drop (new.length - 1)).take tail.length
    else
      new ++ tail

-- The capacity of the sequence after the double append (in-place appends
-- keep the capacity, reallocating appends get theirs from g).
def spliceGoCap (g : Nat → Nat → Nat) (cap i newLen tailLen : Nat) : Nat :=
  if tailLen = 0 then
    (if i + newLen ≤ cap then cap else g (i + newLen) cap)
  else if i + newLen ≤ cap then
    (if i + tailLen + newLen ≤ cap then cap else g (i + tailLen + newLen) cap)
  else
    (if i + tailLen + newLen ≤ g (i + newLen) cap then g (i + newLen) cap
     else g (i + tailLen + newLen) (g (i + newLen) cap))

/- The scan of scanParaOnce (parser.go lines 554-591) from index i on: find
   the first TextEffectContext whose text matches validURL and splice the
   replacement nodes in its place with the Go splice above; none means the
   scan found no match.  Returns the transformed sequence and its new
   capacity. -/
def scanGo (g : Nat → Nat → Nat) (cap : Nat) : Nat → List InlineContext →
    Option (List InlineContext × Nat)
  | _, [] => none
  | i, InlineContext.textEffect eff t :: xs =>
    (match findURL t with
     | some (s, e) =>
       some (spliceGoList cap i (spliceNode eff t s e) xs,
         spliceGoCap g cap i (spliceNode eff t s e).length xs.length)
     | none =>
       (scanGo g cap (i + 1) xs).map (fun r => (InlineContext.textEffect eff t :: r.1, r.2)))
  | i, x :: xs => (scanGo g cap (i + 1) xs).map (fun r => (x :: r.1, r.2))

-- scanParaOnce over a sequence of capacity cap.
def scanParaOnce (g : Nat → Nat → Nat) (cap : Nat) (l : List InlineContext) :
    Option (List InlineContext × Nat) :=
  scanGo g cap 0 l

/- Termination measure of the fixup loop: the sum of 2^(text length) over
   the StyledText nodes.  Each splice removes a node containing a URL match
   of length at least 8 and adds at most one before-node, one after-node and
   (through the in-place clobbering) copies of the non-head replacement
   nodes, all strictly lighter in total. -/
def powWeight : List InlineContext → Nat
  | [] => 0
  | InlineContext.textEffect _ t :: xs => 2 ^ t.length + powWeight xs
  | _ :: xs => powWeight xs

/- fixupLinks (parser.go lines 545-551): repeat scanParaOnce until a full
   scan finds no match, threading the sequence and its capacity.  The loop
   is expressed with explicit fuel; fuel powWeight l + 1 is proved
   sufficient below (fixupLoop_noURLs) for every g and cap, so the
   fuel-exhausted branch is unreachable and fixupLinks computes the loop's
   fixed point. -/
def fixupLoop (g : Nat → Nat → Nat) : Nat → Nat → List InlineContext → List InlineContext
  | 0, _, l => l
  | fuel + 1, cap, l =>
    match scanParaOnce g cap l with
    | none => l
    | some r => fixupLoop g fuel r.2 r.1

def fixupLinks (g : Nat → Nat → Nat) (cap : Nat) (l : List InlineContext) : List InlineContext :=
  fixupLoop g (powWeight l + 1) cap l

-- No StyledText node's text contains a match of validURL.
def noURLs (l : List InlineContext) : Bool :=
  l.all fun x =>
    match x with
    | InlineContext.textEffect _ t => (findURL t).isNone
    | _ => true

-- Generic helper lemmas about the list primitives used by the embedding.

theorem takeWhile_all_eq {p : Char → Bool} :
    ∀ {l : List Char}, (∀ c ∈ l, p c = true) → l.takeWhile p = l := by
  intro l
  induction l with
  | nil => intro _; rfl
  | cons a as ih =>
    intro h
    have ha : p a = true := h a (List.mem_cons_self a as)
    simp [List.takeWhile_cons, ha, ih fun c hc => h c (List.mem_cons_of_mem a hc)]

theorem takeWhile_append_stop {p : Char → Bool} {w : List Char} {x : Char} (r : List Char)
    (hw : ∀ c ∈ w, p c = true) (hx : p x = false) :
    (w ++ x :: r).takeWhile p = w := by
  induction w with
  | nil => simp [List.takeWhile_cons, hx]
  | cons a as ih =>
    have ha : p a = true := hw a (List.mem_cons_self a as)
    simp [List.takeWhile_cons, ha]
    exact ih fun c hc => hw c (List.mem_cons_of_mem a hc)

theorem startsL_append_self : ∀ (p l : List Char), startsL p (p ++ l) = true := by
  intro p
  induction p with
  | nil => intro l; rfl
  | cons a ps ih => intro l; simp [startsL, ih]

theorem startsL_exists : ∀ (p l : List Char), startsL p l = true → ∃ r, l = p ++ r := by
  intro p
  induction p with
  | nil => intro l _; exact ⟨l, rfl⟩
  | cons a ps ih =>
    intro l h
    cases l with
    | nil => exact absurd h (by simp [startsL])
    | cons b bs =>
      simp only [startsL, Bool.and_eq_true, beq_iff_eq] at h
      obtain ⟨r, hr⟩ := ih bs h.2
      exact ⟨r, by simp [h.1, hr]⟩

theorem startsL_length : ∀ (p l : List Char), startsL p l = true → p.length ≤ l.length := by
  intro p l h
  obtain ⟨r, hr⟩ := startsL_exists p l h
  simp [hr]

theorem startsL_getElem : ∀ (p l : List Char), startsL p l = true →
    ∀ i, i < p.length → l[i]? = p[i]? := by
  intro p l h i hi
  obtain ⟨r, hr⟩ := startsL_exists p l h
  subst hr
  exact List.getElem?_append_left hi

theorem endsL_exists {buf tag : List Char} (h : endsL buf tag = true) :
    ∃ init, buf = init ++ tag := by
  obtain ⟨r, hr⟩ := startsL_exists _ _ h
  refine ⟨r.reverse, ?_⟩
  have h2 := congrArg List.reverse hr
  simpa [List.reverse_append] using h2

theorem endsL_false_of_mismatch (A B : List Char) (i : Nat) (hiA : i < A.length)
    (hiB : i < B.length) (hne : A.reverse[i]? ≠ B.reverse[i]?) :
    ∀ init : List Char, endsL (init ++ A) B = false := by
  intro init
  cases h : endsL (init ++ A) B with
  | false => rfl
  | true =>
    exfalso
    have h2 := startsL_getElem _ _ h i (by simpa using hiB)
    rw [List.reverse_append, List.getElem?_append_left (by simpa using hiA)] at h2
    exact hne h2

/-- C1: the claim says that after the block sequence is consumed the inline
parser and link fixup replace every Paragraph's raw text by its inline node
sequence.  In the code walkAST has an empty body, so parsePara and fixupLinks
are never invoked: parsing the paragraph "**bold**" leaves its raw text in
place and its inline node list empty, and walkAST is the identity. -/
theorem c1_inline_pass_never_runs :
    Parse ("**bold**").toList "t" = some ⟨"t", [.para ("**bold**").toList []]⟩ ∧
      ∀ u : ParseUnit, walkAST u = u := by
  exact ⟨rfl, fun u => rfl⟩

/-- C2 counterexample: the claim says the input with an unterminated code tag
yields an UnterminatedLiteralBlock error and no document.  The code has no
error path at all: Parse on that very input returns a document, and since
validCodeStartTag requires an attribute word, no code region even opens —
the line becomes a plain paragraph. -/
theorem c2_counterexample :
    Parse ("<code>abc").toList "t" = some ⟨"t", [.para (("<code>abc").toList) []]⟩ := by
  exact rfl

/-- C2 amended: Parse never reports an unterminated verbatim region.  A bare
start tag without attribute opens nothing (counterexample theorem), and a
genuinely opened region with no end tag is silently discarded: its
accumulated content is never flushed, and a document with no blocks is
returned instead of an error. -/
theorem c2_amended :
    Parse ("<code x>abc").toList "t" = some ⟨"t", []⟩ := by
  exact rfl

/-- C3: the claim says the childless-list panic of the tree assembler is
unreachable for block sequences produced by the segmenter.  It is reachable:
children are appended to value copies of ListContext, so every stored list is
childless, and descending from a level-2 list into a level-4 item reaches the
panic.  Parse of a header followed by a nested list item pair panics (none). -/
theorem c3_panic_reachable :
    Parse ("= h =\n  * a\n    * b").toList "t" = none := by
  exact rfl

/-- C4: the claim says the three list lines produce one level-1 list with a
nested level-2 list and three attached paragraphs.  The code instead: turns
the first list item into a plain top-level Paragraph (empty Sections case),
reports levels in indent characters (2 and 4), and loses every list child
(appends go to value copies), yielding a paragraph and two childless lists. -/
theorem c4_actual_tree :
    Parse ("  * a\n    * b\n  * c").toList "t" =
      some ⟨"t", [.para ['a'] [], .list 4 false .nil, .list 2 false .nil]⟩ := by
  exact rfl

/-- C5 counterexample: for one two-space indent group (k = 1) the claim says
parseListItem reports level 1; the code reports len(groups[1]) = 2, the
number of indent characters (its own unit test expects this). -/
theorem c5_counterexample :
    (parseListItem ("  * a").toList).1 = 2 ∧ (parseListItem ("  * a").toList).1 ≠ 1 := by
  exact ⟨rfl, by decide⟩

/-- C6 counterexample: the claim says parsing the code-tagged input yields a
single code LiteralBlock node with the tag content.  The parse succeeds but
the resulting document contains no inline node at all (so in particular no
code LiteralBlock): the bare code start tag does not match
validCodeStartTag, and the inline parser is never run. -/
theorem c6_counterexample :
    docInlines (Parse ("<code>**not bold**</code>").toList "t") = [] ∧
      (Parse ("<code>**not bold**</code>").toList "t").isSome = true := by
  exact ⟨rfl, rfl⟩

/-- C6 amended: the input parses to a single Paragraph whose raw text is the
original text with only the trailing end tag rewritten to the code end
sentinel (0x00 0x02); no code region opens (the start tag regex requires an
attribute word), and no LiteralBlock and no StyledText node is produced,
since the inline parser is never invoked — in particular nothing inside is
interpreted as bold. -/
theorem c6_amended :
    Parse ("<code>**not bold**</code>").toList "t" =
      some ⟨"t", [.para (("<code>**not bold**").toList ++ [Char.ofNat 0, Char.ofNat 2]) []]⟩ := by
  exact rfl

/-- C9: the claim says the media content yields width 200 and height 100.
parseMedia slices groups[2][1:len(groups[2])-1], dropping the final character
of the dimension suffix, so the height is parsed from the string of the first
two digits and comes out 10; everything else (resource, width, left
alignment, title) is as claimed. -/
theorem c9_media_height_bug :
    parseMedia (" image.png?200x100|Caption").toList =
      some ⟨0, 200, 10, AlignLeft, ("Caption").toList, ("image.png").toList⟩ := by
  exact rfl

/-- C10 counterexample: the claim says a buffer ending in an end-tag literal
at a '>' is always rewritten to the end sentinel with the kind's flag
cleared.  For the line with buffer "<file a b</html>", the earlier file
start-tag pattern (whose dot-plus part swallows "b</html") matches first, so
the scanner opens a FILE region and replaces the whole match with the file
start sentinel; the "</html>" literal is not rewritten to the html end
sentinel and no flag is cleared as the claim requires. -/
theorem c10_counterexample :
    scanLine initScan (("<file a b</html>").toList) =
        ⟨false, true, false, false, false, [Char.ofNat 0, Char.ofNat 3]⟩ ∧
      scanLine initScan (("<file a b</html>").toList) ≠
        ⟨false, false, false, false, false, ("<file a b").toList ++ endOfhtmlTag⟩ := by
  exact ⟨rfl, by decide⟩

/-- C5 amended: for a line of 2k leading spaces (k at least 1) followed by a
list marker, a space and the item text, parseListItem reports level 2k — the
number of indent characters, not the number k of two-space groups — ordered
true iff the marker is the dash, and the item text trimmed of surrounding
whitespace. -/
theorem c5_amended (k : Nat) (m : Char) (t : List Char) (hk : 1 ≤ k)
    (hm : m = '*' ∨ m = '-') :
    parseListItem (List.replicate (2 * k) ' ' ++ m :: ' ' :: t) =
      (2 * k, m == '-', trimSpace t) := by
  have hm' : (m == ' ') = false := by
    rcases hm with h | h <;> subst h <;> rfl
  have h1 : (List.replicate (2 * k) ' ' ++ m :: ' ' :: t).takeWhile (fun c => c == ' ') =
      List.replicate (2 * k) ' ' := by
    refine takeWhile_append_stop _ ?_ hm'
    intro c hc
    have hc2 := List.eq_of_mem_replicate hc
    subst hc2
    rfl
  have h2 : (List.replicate (2 * k) ' ' ++ m :: ' ' :: t).drop (2 * k) = m :: ' ' :: t := by
    simp
  have hcond : ((m == '*' || m == '-') && (' ' == ' ') &&
      decide (2 ≤ 2 * k) && decide (2 * k % 2 = 0)) = true := by
    simp only [Bool.and_eq_true, decide_eq_true_eq]
    refine ⟨⟨⟨?_, rfl⟩, by omega⟩, by omega⟩
    rcases hm with h | h <;> subst h <;> rfl
  unfold parseListItem
  simp only [h1, h2, List.length_replicate]
  rw [hcond]
  simp

/-- C5 amended witness: one two-space group, star marker. -/
theorem c5_amended_witness :
    parseListItem (List.replicate (2 * 1) ' ' ++ '*' :: ' ' :: ['a']) =
      (2 * 1, '*' == '-', trimSpace ['a']) :=
  c5_amended 1 '*' ['a'] (by decide) (Or.inl rfl)

/-- C8 counterexample: the claim says that without a pipe the whole enclosed
text is both target and display text, and isInternal is true only when no
scheme was supplied.  In the code the no-pipe branch leaves the target
(HyperLink) empty, and it sets isInternal true whenever there is no pipe —
even for a text that carries the http scheme. -/
theorem c8_counterexample :
    ¬ (parseLink ("page").toList).HyperLink = ("page").toList ∧
      (parseLink ("http://a.com").toList).IsInternal = true := by
  exact ⟨by decide, rfl⟩

/-- C8 amended: with a pipe, the part before it is the target and the part
after is the display text with isInternal false (as claimed); without a
pipe, the display text is the whole enclosed text but the target is left
EMPTY (not the enclosed text), and isInternal is true exactly when no pipe
is present, regardless of any scheme. -/
theorem c8_amended :
    (∀ pre post : List Char, '|' ∉ pre →
        parseLink (pre ++ '|' :: post) = ⟨pre, post, false⟩) ∧
      (∀ lb : List Char, '|' ∉ lb → parseLink lb = ⟨[], lb, true⟩) := by
  constructor
  · intro pre post hp
    have h1 : (pre ++ '|' :: post).takeWhile (fun c => c != '|') = pre := by
      refine takeWhile_append_stop _ ?_ (by rfl)
      intro c hc
      simp only [bne_iff_ne, ne_eq]
      exact fun he => hp (he ▸ hc)
    unfold parseLink
    rw [h1, if_neg (by simp)]
    have h2 : pre ++ '|' :: post = (pre ++ ['|']) ++ post := by simp
    rw [h2, List.drop_left' (by simp)]
  · intro lb hl
    have h1 : lb.takeWhile (fun c => c != '|') = lb := by
      refine takeWhile_all_eq ?_
      intro c hc
      simp only [bne_iff_ne, ne_eq]
      exact fun he => hl (he ▸ hc)
    unfold parseLink
    rw [h1, if_pos rfl]

/-- C8 amended witness: a pipe link and a bare page link. -/
theorem c8_amended_witness :
    parseLink (['a'] ++ '|' :: ['b']) = ⟨['a'], ['b'], false⟩ ∧
      parseLink ['p'] = ⟨[], ['p'], true⟩ :=
  ⟨c8_amended.1 ['a'] ['b'] (by decide), c8_amended.2 ['p'] (by decide)⟩

-- Lemmas for the link-fixup fixed point (C7).

theorem takeWhile_len_le (p : Char → Bool) :
    ∀ l : List Char, (l.takeWhile p).length ≤ l.length := by
  intro l
  induction l with
  | nil => simp
  | cons a as ih =>
    rw [List.takeWhile_cons]
    cases p a <;> simp [ih]

theorem powWeight_append : ∀ a b : List InlineContext,
    powWeight (a ++ b) = powWeight a + powWeight b := by
  intro a b
  induction a with
  | nil => simp [powWeight]
  | cons x xs ih =>
    cases x <;> simp [powWeight, ih]
    all_goals omega

theorem powWeight_take_le : ∀ (l : List InlineContext) (m : Nat),
    powWeight (l.take m) ≤ powWeight l := by
  intro l
  induction l with
  | nil => intro m; simp
  | cons x xs ih =>
    intro m
    cases m with
    | zero => simp [powWeight]
    | succ m =>
      rw [List.take_succ_cons]
      cases x <;> (simp only [powWeight]; have hm := ih m; omega)

theorem powWeight_drop_le : ∀ (l : List InlineContext) (m : Nat),
    powWeight (l.drop m) ≤ powWeight l := by
  intro l
  induction l with
  | nil => intro m; simp
  | cons x xs ih =>
    intro m
    cases m with
    | zero => simp
    | succ m =>
      rw [List.drop_succ_cons]
      cases x
      case textEffect eff t =>
        simp only [powWeight]
        exact le_trans (ih m) (Nat.le_add_left _ _)
      all_goals (simp only [powWeight]; exact ih m)

theorem schemeLen_bounds {s : List Char} {k : Nat} (h : schemeLen s = some k) :
    6 ≤ k ∧ k ≤ s.length := by
  unfold schemeLen at h
  split at h
  · rename_i hc
    cases h
    have h5 := startsL_length _ _ hc
    exact ⟨by omega, h5⟩
  · split at h
    · rename_i hc
      cases h
      have h5 := startsL_length _ _ hc
      exact ⟨by omega, h5⟩
    · split at h
      · rename_i hc
        cases h
        have h5 := startsL_length _ _ hc
        exact ⟨by omega, h5⟩
      · cases h

theorem matchURLAt_bounds {s : List Char} {len : Nat} (h : matchURLAt s = some len) :
    8 ≤ len ∧ len ≤ s.length := by
  unfold matchURLAt at h
  split at h
  · simp at h
  · rename_i k hk
    have hks := schemeLen_bounds hk
    split at h
    · rename_i c1 c2 rest2 hdrop
      split at h
      · cases h
        have hld : (s.drop k).length = s.length - k := List.length_drop k s
        rw [hdrop] at hld
        simp only [List.length_cons] at hld
        have htw := takeWhile_len_le (fun c => !isSpaceRE c) rest2
        omega
      · simp at h
    · simp at h

theorem findURLFrom_bounds : ∀ (l : List Char) (p s e : Nat),
    findURLFrom p l = some (s, e) → p ≤ s ∧ s + 8 ≤ e ∧ e ≤ p + l.length := by
  intro l
  induction l with
  | nil => intro p s e h; cases h
  | cons c rest ih =>
    intro p s e h
    unfold findURLFrom at h
    split at h
    · rename_i len hm
      cases h
      have hb := matchURLAt_bounds hm
      simp only [List.length_cons] at hb ⊢
      omega
    · rename_i hm
      have hb := ih (p + 1) s e h
      simp only [List.length_cons]
      omega

theorem findURL_bounds {t : List Char} {s e : Nat} (h : findURL t = some (s, e)) :
    s + 8 ≤ e ∧ e ≤ t.length := by
  have hb := findURLFrom_bounds t 0 s e h
  omega

theorem spliceNode_pow (eff : Nat) (t : List Char) (s e : Nat)
    (h1 : s + 8 ≤ e) (h2 : e ≤ t.length) :
    powWeight (spliceNode eff t s e) + powWeight ((spliceNode eff t s e).drop 1) <
      2 ^ t.length := by
  have hnew0 : powWeight (spliceNode eff t s e) ≤
      2 ^ (t.take s).length + 2 ^ (t.drop e).length := by
    unfold spliceNode
    rw [powWeight_append, powWeight_append]
    split
    · split
      · simp only [powWeight]
        omega
      · simp only [powWeight, Nat.add_zero]
        exact Nat.le_add_right _ _
    · split
      · simp only [powWeight, Nat.zero_add, Nat.add_zero]
        exact Nat.le_add_left _ _
      · simp only [powWeight, Nat.zero_add, Nat.add_zero]
        exact Nat.zero_le _
  have hnew : powWeight (spliceNode eff t s e) ≤ 2 ^ s + 2 ^ (t.length - e) := by
    rw [List.length_take, List.length_drop] at hnew0
    have hmin : min s t.length = s := by omega
    rw [hmin] at hnew0
    exact hnew0
  have hdrop1 : powWeight ((spliceNode eff t s e).drop 1) ≤ powWeight (spliceNode eff t s e) :=
    powWeight_drop_le _ 1
  have b1 : (2 : Nat) ^ s ≤ 2 ^ (t.length - 8) :=
    Nat.pow_le_pow_right (by norm_num) (by omega)
  have b2 : (2 : Nat) ^ (t.length - e) ≤ 2 ^ (t.length - 8) :=
    Nat.pow_le_pow_right (by norm_num) (by omega)
  have hsplit : (2 : Nat) ^ t.length = 2 ^ (t.length - 8) * 256 := by
    rw [show (256 : Nat) = 2 ^ 8 from rfl, ← pow_add]
    congr 1
    omega
  have hpos : 0 < (2 : Nat) ^ (t.length - 8) := pow_pos (by norm_num) _
  omega

theorem spliceGoList_pw (cap i : Nat) (new tail : List InlineContext) :
    powWeight (spliceGoList cap i new tail) ≤
      powWeight new + powWeight (new.drop 1) + powWeight tail := by
  cases tail with
  | nil =>
    simp only [spliceGoList, powWeight]
    omega
  | cons y ys =>
    simp only [spliceGoList]
    split
    · rw [powWeight_append]
      have ht := powWeight_take_le ((new.drop 1) ++ (y :: ys).drop (new.length - 1))
        (y :: ys).length
      rw [powWeight_append] at ht
      have hd := powWeight_drop_le (y :: ys) (new.length - 1)
      omega
    · rw [powWeight_append]
      omega

theorem scanGo_weight (g : Nat → Nat → Nat) :
    ∀ {l : List InlineContext} {cap i : Nat} {l' : List InlineContext} {cap' : Nat},
      scanGo g cap i l = some (l', cap') → powWeight l' < powWeight l := by
  intro l
  induction l with
  | nil => intro cap i l' cap' h; cases h
  | cons x xs ih =>
    intro cap i l' cap' h
    cases x with
    | textEffect eff t =>
      simp only [scanGo] at h
      split at h
      · rename_i s e hf
        rw [Option.some.injEq, Prod.mk.injEq] at h
        obtain ⟨hl, -⟩ := h
        subst hl
        have key := spliceGoList_pw cap i (spliceNode eff t s e) xs
        have hb := findURL_bounds hf
        have hsp := spliceNode_pow eff t s e hb.1 hb.2
        simp only [powWeight]
        omega
      · rw [Option.map_eq_some'] at h
        obtain ⟨r, hr, hfr⟩ := h
        obtain ⟨r1, r2⟩ := r
        rw [Prod.mk.injEq] at hfr
        obtain ⟨hl, -⟩ := hfr
        subst hl
        have hw := ih hr
        simp only [powWeight]
        omega
    | hyperLink a b c =>
      simp only [scanGo, Option.map_eq_some'] at h
      obtain ⟨r, hr, hfr⟩ := h
      obtain ⟨r1, r2⟩ := r
      rw [Prod.mk.injEq] at hfr
      obtain ⟨hl, -⟩ := hfr
      subst hl
      have hw := ih hr
      simp only [powWeight]
      omega
    | mediaCtx a b c d e f =>
      simp only [scanGo, Option.map_eq_some'] at h
      obtain ⟨r, hr, hfr⟩ := h
      obtain ⟨r1, r2⟩ := r
      rw [Prod.mk.injEq] at hfr
      obtain ⟨hl, -⟩ := hfr
      subst hl
      have hw := ih hr
      simp only [powWeight]
      omega
    | codeFile a =>
      simp only [scanGo, Option.map_eq_some'] at h
      obtain ⟨r, hr, hfr⟩ := h
      obtain ⟨r1, r2⟩ := r
      rw [Prod.mk.injEq] at hfr
      obtain ⟨hl, -⟩ := hfr
      subst hl
      have hw := ih hr
      simp only [powWeight]
      omega
    | htmlCtx a =>
      simp only [scanGo, Option.map_eq_some'] at h
      obtain ⟨r, hr, hfr⟩ := h
      obtain ⟨r1, r2⟩ := r
      rw [Prod.mk.injEq] at hfr
      obtain ⟨hl, -⟩ := hfr
      subst hl
      have hw := ih hr
      simp only [powWeight]
      omega
    | noWiki a =>
      simp only [scanGo, Option.map_eq_some'] at h
      obtain ⟨r, hr, hfr⟩ := h
      obtain ⟨r1, r2⟩ := r
      rw [Prod.mk.injEq] at hfr
      obtain ⟨hl, -⟩ := hfr
      subst hl
      have hw := ih hr
      simp only [powWeight]
      omega

theorem scanGo_none_iff (g : Nat → Nat → Nat) :
    ∀ (l : List InlineContext) (cap i : Nat),
      scanGo g cap i l = none ↔ noURLs l = true := by
  intro l
  induction l with
  | nil => intro cap i; simp [scanGo, noURLs]
  | cons x xs ih =>
    intro cap i
    cases x with
    | textEffect eff t =>
      cases hf : findURL t with
      | some se =>
        obtain ⟨s, e⟩ := se
        simp [scanGo, hf, noURLs]
      | none =>
        have ih2 := ih cap (i + 1)
        simp only [scanGo, hf, noURLs, Option.map_eq_none', List.all_cons,
          Option.isNone_none, Bool.true_and] at ih2 ⊢
        exact ih2
    | hyperLink a b c =>
      have ih2 := ih cap (i + 1)
      simp only [scanGo, noURLs, Option.map_eq_none', List.all_cons,
        Bool.true_and] at ih2 ⊢
      exact ih2
    | mediaCtx a b c d e f =>
      have ih2 := ih cap (i + 1)
      simp only [scanGo, noURLs, Option.map_eq_none', List.all_cons,
        Bool.true_and] at ih2 ⊢
      exact ih2
    | codeFile a =>
      have ih2 := ih cap (i + 1)
      simp only [scanGo, noURLs, Option.map_eq_none', List.all_cons,
        Bool.true_and] at ih2 ⊢
      exact ih2
    | htmlCtx a =>
      have ih2 := ih cap (i + 1)
      simp only [scanGo, noURLs, Option.map_eq_none', List.all_cons,
        Bool.true_and] at ih2 ⊢
      exact ih2
    | noWiki a =>
      have ih2 := ih cap (i + 1)
      simp only [scanGo, noURLs, Option.map_eq_none', List.all_cons,
        Bool.true_and] at ih2 ⊢
      exact ih2

theorem fixupLoop_noURLs (g : Nat → Nat → Nat) :
    ∀ (fuel cap : Nat) (l : List InlineContext),
      powWeight l < fuel → noURLs (fixupLoop g fuel cap l) = true := by
  intro fuel
  induction fuel with
  | zero => intro cap l h; omega
  | succ n ih =>
    intro cap l h
    rw [fixupLoop]
    cases hs : scanParaOnce g cap l with
    | none => exact (scanGo_none_iff g l cap 0).1 hs
    | some r =>
      have hw := scanGo_weight g hs
      exact ih r.2 r.1 (by omega)

/-- C7: the link fixup pass reaches a fixed point.  scanParaOnce is modelled
with Go's slice-aliasing splice semantics: the double append writes the
replacement nodes into the shared backing array in place whenever they fit
within the sequence's capacity, clobbering (and duplicating into) the tail
that is then re-appended; capacities are tracked explicitly and the
implementation-defined reallocation capacity is an arbitrary parameter g.
For every g and every capacity, after fixupLinks no StyledText node's text
contains a match of the bare-URL pattern (a further full scan finds
nothing), and running the whole fixup a second time on an already-fixed-up
sequence leaves it unchanged. -/
theorem c7_fixup_fixed_point (g : Nat → Nat → Nat) (cap cap2 : Nat)
    (l : List InlineContext) :
    noURLs (fixupLinks g cap l) = true ∧
      fixupLinks g cap2 (fixupLinks g cap l) = fixupLinks g cap l := by
  have h1 : noURLs (fixupLinks g cap l) = true :=
    fixupLoop_noURLs g (powWeight l + 1) cap l (Nat.lt_succ_self _)
  refine ⟨h1, ?_⟩
  have h2 : scanParaOnce g cap2 (fixupLinks g cap l) = none :=
    (scanGo_none_iff g (fixupLinks g cap l) cap2 0).2 h1
  conv_lhs => rw [fixupLinks]
  rw [fixupLoop, h2]

-- Lemmas for the scanner's end-tag handling (C10).

theorem codeStart_zero (buf w rest2 : List Char)
    (hrev : buf.reverse = '>' :: (w ++ '/' :: rest2))
    (hw : ∀ c ∈ w, isAsciiLetter c = true) :
    codeStartMatchLen buf = 0 := by
  unfold codeStartMatchLen
  rw [hrev]
  simp only [if_pos rfl]
  have htw : (w ++ '/' :: rest2).takeWhile isAsciiLetter = w :=
    takeWhile_append_stop _ hw (by decide)
  simp only [htw]
  have hneg : ¬(w ≠ [] ∧ ((w ++ '/' :: rest2).drop w.length).take 6 = revCodePre) := by
    rintro ⟨-, h2⟩
    rw [List.drop_left] at h2
    rw [show (6 : Nat) = 5 + 1 from rfl, List.take_succ_cons] at h2
    have h4 := congrArg (fun l => l.headI) h2
    simp [revCodePre] at h4
  rw [if_neg hneg]
  simp

theorem c10_amended (s : ScanState) :
    (endsL (s.buf ++ ['>']) endCodeLit = true →
        scanChar s '>' =
          { s with
            isInCodeTag := false,
            buf := replaceBytesWithMarker (s.buf ++ ['>']) 7 endOfCodeTag }) ∧
    (endsL (s.buf ++ ['>']) endFileLit = true →
        fileStartMatchLen (s.buf ++ ['>']) = 0 →
        scanChar s '>' =
          { s with
            isInFileTag := false,
            buf := replaceBytesWithMarker (s.buf ++ ['>']) 7 endOfFileTag }) ∧
    (endsL (s.buf ++ ['>']) endHtmlLit = true →
        fileStartMatchLen (s.buf ++ ['>']) = 0 →
        scanChar s '>' =
          { s with
            isInhtmlTag := false,
            buf := replaceBytesWithMarker (s.buf ++ ['>']) 7 endOfhtmlTag }) ∧
    (endsL (s.buf ++ ['>']) endHTMLLit = true →
        fileStartMatchLen (s.buf ++ ['>']) = 0 →
        scanChar s '>' =
          { s with
            isInHTMLTag := false,
            buf := replaceBytesWithMarker (s.buf ++ ['>']) 7 endOfHTMLTag }) ∧
    (endsL (s.buf ++ ['>']) endNoWikiLit = true →
        fileStartMatchLen (s.buf ++ ['>']) = 0 →
        scanChar s '>' =
          { s with
            isInNoWikiTag := false,
            buf := replaceBytesWithMarker (s.buf ++ ['>']) 9 endOfNoWikiTag }) := by
  refine ⟨?_, ?_, ?_, ?_, ?_⟩
  · intro h
    obtain ⟨init, hb⟩ := endsL_exists h
    have hcs : codeStartMatchLen (s.buf ++ ['>']) = 0 := by
      rw [hb]
      refine codeStart_zero _ ['e', 'd', 'o', 'c'] ('<' :: init.reverse) ?_ (by decide)
      rw [List.reverse_append]
      rfl
    simp only [scanChar, hcs, h, lt_self_iff_false, if_false, if_true, if_pos rfl]
  · intro h h0
    obtain ⟨init, hb⟩ := endsL_exists h
    have hcs : codeStartMatchLen (s.buf ++ ['>']) = 0 := by
      rw [hb]
      refine codeStart_zero _ ['e', 'l', 'i', 'f'] ('<' :: init.reverse) ?_ (by decide)
      rw [List.reverse_append]
      rfl
    have hnc : endsL (s.buf ++ ['>']) endCodeLit = false := by
      rw [hb]
      exact endsL_false_of_mismatch _ _ 2 (by decide) (by decide) (by decide) init
    simp only [scanChar, hcs, hnc, h0, h, lt_self_iff_false, if_false, if_true,
      Bool.false_eq_true, if_pos rfl]
  · intro h h0
    obtain ⟨init, hb⟩ := endsL_exists h
    have hcs : codeStartMatchLen (s.buf ++ ['>']) = 0 := by
      rw [hb]
      refine codeStart_zero _ ['l', 'm', 't', 'h'] ('<' :: init.reverse) ?_ (by decide)
      rw [List.reverse_append]
      rfl
    have hnc : endsL (s.buf ++ ['>']) endCodeLit = false := by
      rw [hb]
      exact endsL_false_of_mismatch _ _ 1 (by decide) (by decide) (by decide) init
    have hnf : endsL (s.buf ++ ['>']) endFileLit = false := by
      rw [hb]
      exact endsL_false_of_mismatch _ _ 1 (by decide) (by decide) (by decide) init
    have hnsh : endsL (s.buf ++ ['>']) startHtmlLit = false := by
      rw [hb]
      exact endsL_false_of_mismatch _ _ 5 (by decide) (by decide) (by decide) init
    simp only [scanChar, hcs, hnc, h0, hnf, hnsh, h, lt_self_iff_false, if_false,
      if_true, Bool.false_eq_true, if_pos rfl]
  · intro h h0
    obtain ⟨init, hb⟩ := endsL_exists h
    have hcs : codeStartMatchLen (s.buf ++ ['>']) = 0 := by
      rw [hb]
      refine codeStart_zero _ ['L', 'M', 'T', 'H'] ('<' :: init.reverse) ?_ (by decide)
      rw [List.reverse_append]
      rfl
    have hnc : endsL (s.buf ++ ['>']) endCodeLit = false := by
      rw [hb]
      exact endsL_false_of_mismatch _ _ 1 (by decide) (by decide) (by decide) init
    have hnf : endsL (s.buf ++ ['>']) endFileLit = false := by
      rw [hb]
      exact endsL_false_of_mismatch _ _ 1 (by decide) (by decide) (by decide) init
    have hnsh : endsL (s.buf ++ ['>']) startHtmlLit = false := by
      rw [hb]
      exact endsL_false_of_mismatch _ _ 1 (by decide) (by decide) (by decide) init
    have hneh : endsL (s.buf ++ ['>']) endHtmlLit = false := by
      rw [hb]
      exact endsL_false_of_mismatch _ _ 1 (by decide) (by decide) (by decide) init
    have hnsH : endsL (s.buf ++ ['>']) startHTMLLit = false := by
      rw [hb]
      exact endsL_false_of_mismatch _ _ 5 (by decide) (by decide) (by decide) init
    simp only [scanChar, hcs, hnc, h0, hnf, hnsh, hneh, hnsH, h, lt_self_iff_false,
      if_false, if_true, Bool.false_eq_true, if_pos rfl]
  · intro h h0
    obtain ⟨init, hb⟩ := endsL_exists h
    have hcs : codeStartMatchLen (s.buf ++ ['>']) = 0 := by
      rw [hb]
      refine codeStart_zero _ ['i', 'k', 'i', 'w', 'o', 'n'] ('<' :: init.reverse) ?_ (by decide)
      rw [List.reverse_append]
      rfl
    have hnc : endsL (s.buf ++ ['>']) endCodeLit = false := by
      rw [hb]
      exact endsL_false_of_mismatch _ _ 1 (by decide) (by decide) (by decide) init
    have hnf : endsL (s.buf ++ ['>']) endFileLit = false := by
      rw [hb]
      exact endsL_false_of_mismatch _ _ 1 (by decide) (by decide) (by decide) init
    have hnsh : endsL (s.buf ++ ['>']) startHtmlLit = false := by
      rw [hb]
      exact endsL_false_of_mismatch _ _ 1 (by decide) (by decide) (by decide) init
    have hneh : endsL (s.buf ++ ['>']) endHtmlLit = false := by
      rw [hb]
      exact endsL_false_of_mismatch _ _ 1 (by decide) (by decide) (by decide) init
    have hnsH : endsL (s.buf ++ ['>']) startHTMLLit = false := by
      rw [hb]
      exact endsL_false_of_mismatch _ _ 1 (by decide) (by decide) (by decide) init
    have hneH : endsL (s.buf ++ ['>']) endHTMLLit = false := by
      rw [hb]
      exact endsL_false_of_mismatch _ _ 1 (by decide) (by decide) (by decide) init
    have hnsn : endsL (s.buf ++ ['>']) startNoWikiLit = false := by
      rw [hb]
      exact endsL_false_of_mismatch _ _ 7 (by decide) (by decide) (by decide) init
    simp only [scanChar, hcs, hnc, h0, hnf, hnsh, hneh, hnsH, hneH, hnsn, h,
      lt_self_iff_false, if_false, if_true, Bool.false_eq_true, if_pos rfl]

/-- C10 amended witness: a stray file end tag while a code region is open is
still rewritten to the file end sentinel with the file flag cleared. -/
theorem c10_amended_witness :
    scanChar ⟨true, false, false, false, false, ("x</file").toList⟩ '>' =
      { (⟨true, false, false, false, false, ("x</file").toList⟩ : ScanState) with
        isInFileTag := false,
        buf := replaceBytesWithMarker (("x</file").toList ++ ['>']) 7 endOfFileTag } :=
  (c10_amended ⟨true, false, false, false, false, ("x</file").toList⟩).2.1
    (by decide) (by decide)

end Dokuwiki
